import Mathlib

/- Shallow embedding of src/app.py, a dispatch-log watcher: it tails a daily
log file, filters duplicate lines through a bounded dedup cache, extracts a
vehicle token from the last bracket group of each line, and notifies phone
subscribers kept in a per-day JSON store.  Python classes become explicit
state records, filesystem effects become explicit finite maps, and the
external clock, SHA1 hash and SMS transport become parameters. -/

set_option maxRecDepth 8000

namespace DispatchAlert

/- ## Python string helpers -/

/-- ASCII whitespace recognized by Python str.strip with its default argument. -/
def pyIsSpace (c : Char) : Bool :=
  c == ' ' || c == '\t' || c == '\n' || c == '\r' || c == '\x0b' || c == '\x0c'

/-- Python str.strip: drop whitespace from both ends of the character list. -/
def pyStrip (l : List Char) : List Char :=
  ((l.dropWhile pyIsSpace).reverse.dropWhile pyIsSpace).reverse

/-- Python str.replace of a single space by the empty string: drop every space. -/
def removeSpaces (l : List Char) : List Char := l.filter (fun c => !(c == ' '))

/-- Whether the second list starts with the first one (character lists). -/
def leadsWith : List Char → List Char → Bool
  | [], _ => true
  | _ :: _, [] => false
  | a :: as, b :: bs => a == b && leadsWith as bs

/-- Whether the second list has the first list as a contiguous run somewhere. -/
def hasSub (pat : List Char) : List Char → Bool
  | [] => leadsWith pat []
  | c :: rest => leadsWith pat (c :: rest) || hasSub pat rest

/- ## Line parsing (app.py: last_bracket_value, VEHICLES, ALIASES) -/

/-- The groups produced by re.findall of the pattern: open bracket, one or
more non-bracket characters, close bracket, scanning left to right.  The
option argument holds the characters collected since the most recent
unclosed open bracket (none when not inside a candidate group). -/
def findBracketsAux : List Char → Option (List Char) → List (List Char)
  | [], _ => []
  | c :: rest, none =>
      if c = '[' then findBracketsAux rest (some []) else findBracketsAux rest none
  | c :: rest, some acc =>
      if c = ']' then
        (if acc = [] then findBracketsAux rest none
         else acc :: findBracketsAux rest none)
      else if c = '[' then findBracketsAux rest (some [])
      else findBracketsAux rest (some (acc ++ [c]))

/-- The fixed allow-list of vehicle names (app.py VEHICLES). -/
def VEHICLES : List String :=
  ["금암구급1", "금암구급2", "금암펌프1", "금암펌프2", "금암물탱크",
   "굴절", "사다리", "구조", "대응단"]

/-- The alias table mapping variant spellings to canonical names (app.py ALIASES). -/
def ALIASES : List (String × String) :=
  [("금암구급02", "금암구급2"), ("금암구급2호", "금암구급2")]

/-- Python ALIASES.get(s, s). -/
def aliasGet (s : String) : String := (ALIASES.lookup s).getD s

/-- app.py last_bracket_value: content of the last bracket group of the line,
stripped, with spaces removed, then alias-resolved; none when no group exists. -/
def last_bracket_value (line : String) : Option String :=
  match (findBracketsAux line.data none).getLast? with
  | none => none
  | some m => some (aliasGet (String.mk (removeSpaces (pyStrip m))))

/- ## Dedup cache (app.py AppState fields dedup and dedup set) -/

/-- The dedup state: a FIFO deque of recent line hashes (front is oldest)
and the companion membership set. -/
structure Dedup where
  deque : List String
  dset : Finset String

def emptyDedup : Dedup := ⟨[], ∅⟩

/-- The unconditional recording block of AppState handling a line, with the
deque capacity k as a parameter (the source fixes k to 200): append the hash
to the deque (a Python deque with maxlen silently drops its oldest element
when full), add it to the set, and when the deque has reached its maxlen
discard the deque front from the set. -/
def dedupRecordK (k : Nat) (st : Dedup) (h : String) : Dedup :=
  let dq1 := if st.deque.length = k then st.deque.tail ++ [h] else st.deque ++ [h]
  let s1 := insert h st.dset
  if dq1.length = k then ⟨dq1, s1.erase dq1.headI⟩ else ⟨dq1, s1⟩

/-- One dedup transition of AppState handling a line: return unchanged when
the hash is already in the membership set, otherwise record it. -/
def dedupStepK (k : Nat) (st : Dedup) (h : String) : Dedup :=
  if h ∈ st.dset then st else dedupRecordK k st h

/-- The dedup transition at the capacity hardcoded in the source (maxlen 200). -/
def dedupStep : Dedup → String → Dedup := dedupStepK 200

/-- Recording a whole sequence of line hashes, starting from the empty cache. -/
def dedupRun (hs : List String) : Dedup := hs.foldl dedupStep emptyDedup

/-- Membership test of the dedup cache (the source tests the companion set). -/
def dedupSeen (st : Dedup) (h : String) : Prop := h ∈ st.dset

instance (st : Dedup) (h : String) : Decidable (dedupSeen st h) :=
  inferInstanceAs (Decidable (h ∈ st.dset))

/- ## Subscription store (app.py Storage) -/

/-- One subscription record, as built by Storage.upsert. -/
structure SubRec where
  phone : String
  vehicles : List String
  cancel_hold_until_09 : Bool
  created_at : String
deriving DecidableEq

/-- Python dict assignment on an insertion-ordered association list: update
in place when the key exists, append at the end otherwise. -/
def dictSet : List (String × SubRec) → String → SubRec → List (String × SubRec)
  | [], k, v => [(k, v)]
  | (k0, v0) :: rest, k, v =>
      if k0 = k then (k, v) :: rest else (k0, v0) :: dictSet rest k v

/-- Python dict lookup on the association list. -/
def dictLookup : List (String × SubRec) → String → Option SubRec
  | [], _ => none
  | (k0, v0) :: rest, k => if k0 = k then some v0 else dictLookup rest k

/-- app.py Storage.subscribers_for_vehicle: phones of the records whose
vehicles list contains the vehicle and whose cancel hold flag is off,
in store iteration order. -/
def subscribers_for_vehicle : List (String × SubRec) → String → List String
  | [], _ => []
  | (_, r) :: rest, v =>
      if v ∈ r.vehicles ∧ r.cancel_hold_until_09 = false
      then r.phone :: subscribers_for_vehicle rest v
      else subscribers_for_vehicle rest v

/-- Paths of the persistence layer: the per-day data file and its archive
destination (data/subscribers_DAY.json and archive/subscribers_DAY.json). -/
inductive JPath
  | dataP (day : String)
  | archiveP (day : String)
deriving DecidableEq

/-- Content of a persisted subscription file: a parseable JSON snapshot of
the records, or bytes that json.load rejects. -/
inductive JContent
  | good (recs : List (String × SubRec))
  | bad
deriving DecidableEq

/-- The persistence filesystem: a finite map from paths to file contents. -/
abbrev JFS := List (JPath × JContent)

def lookupJ : JFS → JPath → Option JContent
  | [], _ => none
  | (q, c) :: rest, p => if q = p then some c else lookupJ rest p

def delJ : JFS → JPath → JFS
  | [], _ => []
  | (q, c) :: rest, p => if q = p then delJ rest p else (q, c) :: delJ rest p

def setJ (fs : JFS) (p : JPath) (c : JContent) : JFS := (p, c) :: delJ fs p

/-- os.replace: move the source file onto the destination (delete the source,
overwrite the destination).  The source checks existence before calling it. -/
def moveJ (fs : JFS) (src dst : JPath) : JFS :=
  match lookupJ fs src with
  | none => fs
  | some c => setJ (delJ fs src) dst c

/-- In-memory Storage state: the current day key and the per-day record dict.
The source keeps json_path in a separate field that always equals the data
path of the current day key, so it is derived here. -/
structure StoreSt where
  today : String
  state : List (String × SubRec)

/-- Storage._persist: full-snapshot overwrite of the current day file. -/
def persistJ (fs : JFS) (st : StoreSt) : JFS :=
  setJ fs (JPath.dataP st.today) (JContent.good st.state)

/-- Storage.rotate_to: if the current day file exists, try to move it to the
archive (the Boolean models whether os.replace succeeds; the except branch of
the source is a bare pass, so a failure produces no output), then reset the
day key and records and persist the empty state.  The third component
collects every message the operation emits, which is none. -/
def rotate_to (archOk : Bool) (fs : JFS) (st : StoreSt) (new_day : String) :
    JFS × StoreSt × List String :=
  let fs1 :=
    if (lookupJ fs (JPath.dataP st.today)).isSome then
      (if archOk then moveJ fs (JPath.dataP st.today) (JPath.archiveP st.today) else fs)
    else fs
  let st1 : StoreSt := { today := new_day, state := [] }
  (persistJ fs1 st1, st1, [])

/-- Storage.list: a snapshot of the current records. -/
def store_list (st : StoreSt) : List SubRec := st.state.map Prod.snd

/-- Outcome of the synchronous Storage._persist call inside a mutating
operation.  The source opens the snapshot file in write mode, which
truncates it, and then dumps the records, so a raised exception either
strikes before the file is opened, leaving it untouched, or during the
truncation and dump, leaving the file with some intermediate content that
the environment supplies here (it may be unparseable, empty, or even a
complete snapshot when the failure strikes at the very end). -/
inductive PersistOutcome
  | ok
  | failBeforeWrite
  | failDuringWrite (partialContent : JContent)
deriving DecidableEq

/-- Storage.upsert: write the record into the in-memory dict, then persist.
The source wraps nothing around Storage._persist, so on failure the
exception escapes upsert (the last component reports that an exception
propagated to the caller) while the dict mutation has already happened; a
failure during the write leaves the truncated, partially written file. -/
def upsert (out : PersistOutcome) (fs : JFS) (st : StoreSt) (phone : String)
    (vehicles : List String) (cancel_hold : Bool) (now_iso : String) :
    JFS × StoreSt × Bool :=
  let st1 : StoreSt :=
    { st with state := dictSet st.state phone ⟨phone, vehicles, cancel_hold, now_iso⟩ }
  match out with
  | PersistOutcome.ok => (persistJ fs st1, st1, false)
  | PersistOutcome.failBeforeWrite => (fs, st1, true)
  | PersistOutcome.failDuringWrite c =>
      (setJ fs (JPath.dataP st1.today) c, st1, true)

/-- Storage._load_today: read the current day file; if it exists but cannot
be parsed the exception is caught and the records are left empty without
touching the file; if it does not exist, persist the empty state. -/
def load_today (fs : JFS) (day : String) : JFS × List (String × SubRec) :=
  match lookupJ fs (JPath.dataP day) with
  | some (JContent.good recs) => (fs, recs)
  | some JContent.bad => (fs, [])
  | none => (setJ fs (JPath.dataP day) (JContent.good []), [])

/- ## SMS provider (app.py SmsProvider.send) -/

/-- The destination actually transmitted by SmsProvider.send on its
configured paths: the phone string with every non-digit removed. -/
def send_dest (phone : String) : String :=
  String.mk (phone.data.filter Char.isDigit)

/- ## Line handling (app.py AppState._handle_line and tail_new_lines) -/

/-- External collaborators of the line handler: the SHA1 line hash, the SMS
transport outcome, and the wall-clock timestamp prepended to status lines. -/
structure Env where
  lhash : String → String
  sendOk : String → String → Bool
  tstamp : String

/-- The AppState fields touched by line handling; sent records every call
made to SmsProvider.send as a pair of phone and text, in order. -/
structure AppSt where
  dedup : Dedup
  storage : List (String × SubRec)
  status : List String
  sent : List (String × String)

/-- AppState.append_status on a deque with maxlen 80: push at the front,
silently dropping the oldest entries beyond the capacity. -/
def statusAdd (status : List String) (m : String) : List String :=
  (m :: status).take 80

/-- app.py AppState._handle_line: dedup filter, vehicle extraction, allow-list
check, subscriber resolution, send loop and status line. -/
def handle_line (env : Env) (st : AppSt) (line : String) : AppSt :=
  let h := env.lhash line
  if dedupSeen st.dedup h then st
  else
    let d := dedupRecordK 200 st.dedup h
    match last_bracket_value line with
    | none => { st with dedup := d }
    | some vehicle =>
      if vehicle = "" ∨ vehicle ∉ VEHICLES then { st with dedup := d }
      else
        let targets := subscribers_for_vehicle st.storage vehicle
        if targets = [] then
          { st with
              dedup := d
              status := statusAdd st.status
                (env.tstamp ++ " [Skip] " ++ vehicle ++ " / 구독자 없음 또는 보류") }
        else
          let text := "[출동알림] " ++ vehicle
          let okCount := (targets.filter (fun p => env.sendOk p text)).length
          let failCount := (targets.filter (fun p => !(env.sendOk p text))).length
          { st with
              dedup := d
              sent := st.sent ++ targets.map (fun p => (p, text))
              status := statusAdd st.status
                (env.tstamp ++ " [Send] " ++ vehicle ++ " → 성공 "
                  ++ toString okCount ++ " / 실패 " ++ toString failCount) }

/-- Python raw.rstrip of the newline character: drop every trailing newline. -/
def rstripNl (s : String) : String :=
  String.mk ((s.data.reverse.dropWhile (fun c => c == '\n')).reverse)

/-- The per-line loop of AppState.tail_new_lines: strip the trailing newline
and hand the line over only when it is not blank (Python truthiness of
line.strip()). -/
def process_lines (env : Env) (st : AppSt) : List String → AppSt
  | [] => st
  | raw :: rest =>
      let line := rstripNl raw
      let st1 := if (pyStrip line.data).isEmpty then st else handle_line env st line
      process_lines env st1 rest

/- ## Tailer offsets (app.py AppState._prepare_tail, reset_at_9, check_rollover) -/

/-- The log filesystem as a map from paths to file sizes; only the byte
length matters for the tail offset. -/
abbrev SzFS := List (String × Nat)

def lookupSz : SzFS → String → Option Nat
  | [], _ => none
  | (q, n) :: rest, p => if q = p then some n else lookupSz rest p

/-- Tailer state: the active log path and the consumed byte offset. -/
structure TailSt where
  current_file : String
  tail_pos : Nat

/-- app.py current_log_path with the default directory and prefix, as a
function of the day formatted YYYY.MM.DD (the clock is external). -/
def log_path (day : String) : String := "logs/ERSS_" ++ day ++ ".txt"

/-- AppState._prepare_tail: create the active file empty when absent, then
seek to its end and store that position as the tail offset. -/
def prepare_tail (fs : SzFS) (st : TailSt) : SzFS × TailSt :=
  match lookupSz fs st.current_file with
  | some sz => (fs, { st with tail_pos := sz })
  | none => ((st.current_file, 0) :: fs, { st with tail_pos := 0 })

/-- AppState.reset_at_9 (tailer part; the storage reset is modelled by
rotate_to): recompute the active path for today, zero the offset, then
restart the watch, which runs prepare_tail and overwrites the offset with
the end of file of the (possibly freshly created) active file. -/
def reset_at_9 (today : String) (fs : SzFS) (_st : TailSt) : SzFS × TailSt :=
  let st1 : TailSt := { current_file := log_path today, tail_pos := 0 }
  prepare_tail fs st1

/-- AppState.check_rollover (tailer part): when the computed path for today
differs from the active path, switch to it and restart the watch, which runs
prepare_tail on the new file. -/
def check_rollover (today : String) (fs : SzFS) (st : TailSt) : SzFS × TailSt :=
  let new_path := log_path today
  if new_path ≠ st.current_file then
    prepare_tail fs { st with current_file := new_path }
  else (fs, st)

/- ## Spec-side definitions used for refinement statements -/

/-- A character list free of bracket characters. -/
def noBr (l : List Char) : Prop := ∀ c ∈ l, c ≠ '[' ∧ c ≠ ']'

instance (l : List Char) : Decidable (noBr l) :=
  inferInstanceAs (Decidable (∀ c ∈ l, c ≠ '[' ∧ c ≠ ']'))

/-- Stated from the specification text: the line has a bracketed substring,
an open bracket followed by at least one non-bracket character and a close
bracket. -/
def specMatch (s : List Char) : Prop :=
  ∃ pre mid post : List Char,
    s = pre ++ '[' :: (mid ++ ']' :: post) ∧ mid ≠ [] ∧ noBr mid

/- ## Auxiliary definitions for the proofs -/

/-- The last k elements of a list. -/
def lastN {α : Type} (k : Nat) (xs : List α) : List α := xs.drop (xs.length - k)

/-- The dedup state invariant maintained by the line handler: the deque has
no duplicates and at most k entries, and the membership set holds exactly
the deque entries while below capacity, but only the deque entries past the
front once the deque has filled up. -/
def dedupInv (k : Nat) (st : Dedup) : Prop :=
  st.deque.Nodup ∧ st.deque.length ≤ k ∧
    ∀ x, x ∈ st.dset ↔ x ∈ (if st.deque.length < k then st.deque else st.deque.tail)

/-- A family of pairwise distinct strings used as concrete hash values. -/
def hashSeq (n : Nat) : List String :=
  (List.range n).map (fun i => String.mk (List.replicate i 'a'))

/- # Theorems -/

/- ## Dedup cache lemmas -/

theorem dedupRun_eq (hs : List String) :
    dedupRun hs = hs.foldl (dedupStepK 200) emptyDedup := rfl

theorem dedupRecordK_deque (k : Nat) (st : Dedup) (h : String) :
    (dedupRecordK k st h).deque
      = if st.deque.length = k then st.deque.tail ++ [h] else st.deque ++ [h] := by
  unfold dedupRecordK
  by_cases hc : st.deque.length = k
  · simp only [if_pos hc]
    split <;> rfl
  · simp only [if_neg hc]
    split <;> rfl

theorem dedupInv_empty (k : Nat) : dedupInv k emptyDedup := by
  refine ⟨List.nodup_nil, by simp [emptyDedup], fun x => ?_⟩
  constructor
  · intro hx
    exact absurd hx (Finset.not_mem_empty x)
  · intro hx
    split at hx <;> simp [emptyDedup] at hx

theorem dedupInv_push (k : Nat) (dset : Finset String) (h a : String) (l : List String)
    (hnd : (a :: l).Nodup) (hh : h ∉ a :: l)
    (hiff : ∀ x, x ∈ dset ↔ x ∈ a :: l)
    (hlen : (a :: (l ++ [h])).length = k) :
    dedupInv k ⟨a :: (l ++ [h]), (insert h dset).erase a⟩ := by
  have ha_l : a ∉ l := (List.nodup_cons.mp hnd).1
  have hnd_l : l.Nodup := (List.nodup_cons.mp hnd).2
  have hha : h ≠ a := fun e => hh (e ▸ List.mem_cons_self a l)
  have hhl : h ∉ l := fun e => hh (List.mem_cons_of_mem _ e)
  have hnlt : ¬ ((a :: (l ++ [h])).length < k) := by rw [hlen]; omega
  refine ⟨?_, ?_, fun x => ?_⟩
  · show (a :: (l ++ [h])).Nodup
    rw [List.nodup_cons]
    constructor
    · intro hmem
      rcases List.mem_append.mp hmem with hc | hc
      · exact ha_l hc
      · exact hha (List.mem_singleton.mp hc).symm
    · rw [List.nodup_append]
      refine ⟨hnd_l, List.nodup_singleton _, ?_⟩
      intro x hx hx1
      rw [List.mem_singleton] at hx1
      exact hhl (hx1 ▸ hx)
  · show (a :: (l ++ [h])).length ≤ k
    omega
  · show x ∈ (insert h dset).erase a ↔
      x ∈ (if (a :: (l ++ [h])).length < k then a :: (l ++ [h])
        else (a :: (l ++ [h])).tail)
    rw [if_neg hnlt, List.tail_cons]
    constructor
    · intro hx
      rw [Finset.mem_erase] at hx
      obtain ⟨hxa, hxi⟩ := hx
      rw [Finset.mem_insert] at hxi
      rcases hxi with rfl | hxd
      · exact List.mem_append.mpr (Or.inr (List.mem_singleton.mpr rfl))
      · rcases List.mem_cons.mp ((hiff x).mp hxd) with rfl | hxl
        · exact absurd rfl hxa
        · exact List.mem_append.mpr (Or.inl hxl)
    · intro hx
      rcases List.mem_append.mp hx with hxl | hxh
      · rw [Finset.mem_erase, Finset.mem_insert]
        exact ⟨fun e => ha_l (e ▸ hxl), Or.inr ((hiff x).mpr (List.mem_cons_of_mem _ hxl))⟩
      · rw [List.mem_singleton] at hxh
        subst hxh
        rw [Finset.mem_erase, Finset.mem_insert]
        exact ⟨hha, Or.inl rfl⟩

theorem dedupInv_step (k : Nat) (hk : 2 ≤ k) (st : Dedup) (hinv : dedupInv k st)
    (h : String) : dedupInv k (dedupStepK k st h) := by
  obtain ⟨hnd, hlen, hiff⟩ := hinv
  by_cases hseen : h ∈ st.dset
  · simpa [dedupStepK, hseen] using And.intro hnd (And.intro hlen hiff)
  · rw [dedupStepK, if_neg hseen]
    by_cases hfull : st.deque.length = k
    · obtain ⟨y, t, hdq⟩ : ∃ y t, st.deque = y :: t := by
        cases hdq : st.deque with
        | nil => rw [hdq] at hfull; simp at hfull; omega
        | cons b u => exact ⟨b, u, rfl⟩
      obtain ⟨z, t2, hz⟩ : ∃ z t2, t = z :: t2 := by
        cases hct : t with
        | nil => rw [hdq, hct] at hfull; simp at hfull; omega
        | cons b u => exact ⟨b, u, rfl⟩
      subst hz
      have hlen2 : t2.length + 2 = k := by rw [hdq] at hfull; simpa using hfull
      have hiff2 : ∀ x, x ∈ st.dset ↔ x ∈ z :: t2 := by
        intro x
        rw [hiff x, if_neg (by omega), hdq, List.tail_cons]
      have hrec : dedupRecordK k st h
          = ⟨z :: (t2 ++ [h]), (insert h st.dset).erase z⟩ := by
        unfold dedupRecordK
        rw [if_pos hfull, hdq, List.tail_cons]
        have hl1 : ((z :: t2) ++ [h]).length = k := by simpa using hlen2
        rw [if_pos hl1]
        simp
      rw [hrec]
      refine dedupInv_push k st.dset h z t2 ?_ ?_ hiff2 (by simpa using hlen2)
      · have : (y :: z :: t2).Nodup := hdq ▸ hnd
        exact (List.nodup_cons.mp this).2
      · exact fun e => hseen ((hiff2 h).mpr e)
    · have hlt : st.deque.length < k := lt_of_le_of_ne hlen hfull
      have hiff2 : ∀ x, x ∈ st.dset ↔ x ∈ st.deque := by
        intro x
        rw [hiff x, if_pos hlt]
      have hh : h ∉ st.deque := fun e => hseen ((hiff2 h).mpr e)
      by_cases hhit : st.deque.length + 1 = k
      · obtain ⟨y, t, hdq⟩ : ∃ y t, st.deque = y :: t := by
          cases hdq : st.deque with
          | nil => rw [hdq] at hhit; simp at hhit; omega
          | cons b u => exact ⟨b, u, rfl⟩
        have hrec : dedupRecordK k st h
            = ⟨y :: (t ++ [h]), (insert h st.dset).erase y⟩ := by
          unfold dedupRecordK
          rw [if_neg hfull]
          have hl1 : (st.deque ++ [h]).length = k := by
            rw [List.length_append, List.length_singleton]; omega
          rw [if_pos hl1, hdq]
          simp
        rw [hrec]
        have hlen3 : (y :: (t ++ [h])).length = k := by
          rw [hdq] at hhit; simpa using hhit
        exact dedupInv_push k st.dset h y t (hdq ▸ hnd) (hdq ▸ hh)
          (fun x => hdq ▸ hiff2 x) hlen3
      · have hrec : dedupRecordK k st h = ⟨st.deque ++ [h], insert h st.dset⟩ := by
          unfold dedupRecordK
          rw [if_neg hfull]
          have hl1 : (st.deque ++ [h]).length ≠ k := by
            rw [List.length_append, List.length_singleton]; omega
          rw [if_neg hl1]
        rw [hrec]
        refine ⟨?_, ?_, fun x => ?_⟩
        · show (st.deque ++ [h]).Nodup
          rw [List.nodup_append]
          refine ⟨hnd, List.nodup_singleton _, ?_⟩
          intro x hx hx1
          rw [List.mem_singleton] at hx1
          exact hh (hx1 ▸ hx)
        · show (st.deque ++ [h]).length ≤ k
          rw [List.length_append, List.length_singleton]; omega
        · show x ∈ insert h st.dset ↔
            x ∈ (if (st.deque ++ [h]).length < k then st.deque ++ [h]
              else (st.deque ++ [h]).tail)
          have hlt2 : (st.deque ++ [h]).length < k := by
            rw [List.length_append, List.length_singleton]; omega
          rw [if_pos hlt2, Finset.mem_insert, List.mem_append, List.mem_singleton,
            hiff2 x]
          tauto

theorem dedupInv_run (k : Nat) (hk : 2 ≤ k) (hs : List String) :
    dedupInv k (hs.foldl (dedupStepK k) emptyDedup) := by
  suffices H : ∀ st, dedupInv k st → dedupInv k (hs.foldl (dedupStepK k) st) from
    H emptyDedup (dedupInv_empty k)
  induction hs with
  | nil => exact fun st hst => hst
  | cons a l ih => exact fun st hst => ih _ (dedupInv_step k hk st hst a)

theorem dedupRun_deque (k : Nat) (hk : 2 ≤ k) (hs : List String) (hnd : hs.Nodup) :
    (hs.foldl (dedupStepK k) emptyDedup).deque = lastN k hs := by
  induction hs using List.reverseRecOn with
  | nil => simp [emptyDedup, lastN]
  | append_singleton l a ih =>
    obtain ⟨hndl, _, hdisj⟩ := List.nodup_append.mp hnd
    have hal : a ∉ l := fun hm => hdisj hm (List.mem_singleton.mpr rfl)
    have IH := ih hndl
    obtain ⟨hinvnd, hinvlen, hinviff⟩ := dedupInv_run k hk l
    rw [List.foldl_append, List.foldl_cons, List.foldl_nil]
    set st := l.foldl (dedupStepK k) emptyDedup with hst
    have hseen : a ∉ st.dset := by
      intro hx
      have hx2 := (hinviff a).mp hx
      have hx3 : a ∈ st.deque := by
        split at hx2
        · exact hx2
        · exact List.mem_of_mem_tail hx2
      rw [IH] at hx3
      exact hal (List.drop_subset _ _ hx3)
    rw [dedupStepK, if_neg hseen, dedupRecordK_deque]
    by_cases hfull : st.deque.length = k
    · rw [if_pos hfull, IH]
      have hfl : (lastN k l).length = k := by rw [← IH]; exact hfull
      have hkl : k ≤ l.length := by
        simp only [lastN, List.length_drop] at hfl
        omega
      unfold lastN
      rw [List.tail_drop, List.length_append, List.length_singleton,
        List.drop_append_of_le_length (by omega)]
      have he : l.length - k + 1 = l.length + 1 - k := by omega
      rw [he]
    · rw [if_neg hfull, IH]
      have hfl : (lastN k l).length ≠ k := by rw [← IH]; exact hfull
      have hkl : l.length < k := by
        simp only [lastN, List.length_drop] at hfl
        omega
      unfold lastN
      rw [List.length_append, List.length_singleton,
        Nat.sub_eq_zero_of_le (by omega), Nat.sub_eq_zero_of_le (by omega),
        List.drop_zero, List.drop_zero]

theorem hashSeq_nodup (n : Nat) : (hashSeq n).Nodup := by
  refine List.Nodup.map ?_ (List.nodup_range n)
  intro i j hij
  have h2 : List.replicate i 'a' = List.replicate j 'a' := congrArg String.data hij
  have h3 := congrArg List.length h2
  simpa using h3

theorem hashSeq_length (n : Nat) : (hashSeq n).length = n := by simp [hashSeq]

/- ## C1 and C2 -/

/-- C1: for every sequence of 201 pairwise distinct line hashes recorded into
the dedup cache of capacity 200, after the last insertion the first inserted
hash is no longer reported as seen, so a later occurrence of the first line
would be processed again. -/
theorem C1_dedup_capacity (hs : List String) (hnd : hs.Nodup)
    (hlen : hs.length = 201) : ¬ dedupSeen (dedupRun hs) hs.headI := by
  intro hseen
  obtain ⟨hinvnd, hinvlen, hinviff⟩ := dedupInv_run 200 (by omega) hs
  have hdq := dedupRun_deque 200 (by omega) hs hnd
  rw [dedupSeen, dedupRun_eq] at hseen
  have hx := (hinviff hs.headI).mp hseen
  rw [hdq] at hx
  have hlast : lastN 200 hs = hs.drop 1 := by unfold lastN; rw [hlen]
  rw [hlast] at hx
  have hld : (hs.drop 1).length = 200 := by rw [List.length_drop, hlen]
  rw [if_neg (by omega), List.tail_drop] at hx
  cases hs with
  | nil => simp at hlen
  | cons b t =>
    have hbt : b ∉ t := (List.nodup_cons.mp hnd).1
    rw [List.headI_cons] at hx
    have : b ∈ t := by
      have h2 : (b :: t).drop (1 + 1) = t.drop 1 := rfl
      rw [h2] at hx
      exact List.drop_subset _ _ hx
    exact hbt this

/-- Witness for C1 at a concrete family of 201 distinct hashes. -/
theorem C1_dedup_capacity_witness :
    ¬ dedupSeen (dedupRun (hashSeq 201)) (hashSeq 201).headI :=
  C1_dedup_capacity (hashSeq 201) (hashSeq_nodup 201) (hashSeq_length 201)

/-- C2 counterexample: after recording 200 distinct hashes, the first one is
still in the FIFO deque but has already been discarded from the membership
set, so the deque and the set do not contain the same hashes. -/
theorem C2_dedup_consistency_cex :
    (hashSeq 200).headI ∈ (dedupRun (hashSeq 200)).deque ∧
      (hashSeq 200).headI ∉ (dedupRun (hashSeq 200)).dset := by
  have hdq := dedupRun_deque 200 (by omega) (hashSeq 200) (hashSeq_nodup 200)
  obtain ⟨hinvnd, hinvlen, hinviff⟩ := dedupInv_run 200 (by omega) (hashSeq 200)
  have hlast : lastN 200 (hashSeq 200) = hashSeq 200 := by
    unfold lastN
    rw [hashSeq_length]
    simp
  have hdq2 : (dedupRun (hashSeq 200)).deque = hashSeq 200 := by
    rw [dedupRun_eq, hdq, hlast]
  obtain ⟨b, t, hbt⟩ : ∃ b t, hashSeq 200 = b :: t := by
    cases hc : hashSeq 200 with
    | nil => have := hashSeq_length 200; rw [hc] at this; simp at this
    | cons b t => exact ⟨b, t, rfl⟩
  constructor
  · rw [hdq2, hbt, List.headI_cons]
    exact List.mem_cons_self b t
  · intro hmem
    rw [dedupRun_eq] at hmem
    have hx := (hinviff _).mp hmem
    rw [hdq, hlast] at hx
    have hl200 : (hashSeq 200).length = 200 := hashSeq_length 200
    rw [if_neg (by omega), hbt, List.headI_cons, List.tail_cons] at hx
    have hnodup := hashSeq_nodup 200
    rw [hbt, List.nodup_cons] at hnodup
    exact hnodup.1 hx

/-- C2 amended: after every sequence of record operations, every hash in the
membership set is in the deque; while the deque is below its capacity of 200
the deque and the set contain exactly the same hashes, but once the deque is
at capacity the set contains exactly the hashes occurring past the front of
the deque. -/
theorem C2_dedup_consistency_amended (hs : List String) :
    (∀ x ∈ (dedupRun hs).dset, x ∈ (dedupRun hs).deque) ∧
      ((dedupRun hs).deque.length < 200 →
        ∀ x, x ∈ (dedupRun hs).dset ↔ x ∈ (dedupRun hs).deque) ∧
      ((dedupRun hs).deque.length = 200 →
        ∀ x, x ∈ (dedupRun hs).dset ↔ x ∈ (dedupRun hs).deque.tail) := by
  obtain ⟨hinvnd, hinvlen, hinviff⟩ := dedupInv_run 200 (by omega) hs
  have e : dedupRun hs = hs.foldl (dedupStepK 200) emptyDedup := dedupRun_eq hs
  refine ⟨fun x hx => ?_, fun hlt x => ?_, fun heq x => ?_⟩
  · rw [e] at hx ⊢
    have := (hinviff x).mp hx
    split at this
    · exact this
    · exact List.mem_of_mem_tail this
  · rw [e] at hlt ⊢
    rw [hinviff x, if_pos hlt]
  · rw [e] at heq ⊢
    rw [hinviff x, if_neg (by omega)]

/-- Witness for the amended C2 on a concrete run below capacity. -/
theorem C2_dedup_consistency_amended_witness :
    "" ∈ (dedupRun []).dset ↔ "" ∈ (dedupRun []).deque :=
  (C2_dedup_consistency_amended []).2.1 (by decide) ""

/- ## Tailer lemmas and C3 -/

theorem prepare_tail_file (fs : SzFS) (st : TailSt) :
    (prepare_tail fs st).2.current_file = st.current_file := by
  unfold prepare_tail
  split <;> rfl

theorem prepare_tail_pos (fs : SzFS) (st : TailSt) :
    (prepare_tail fs st).2.tail_pos = (lookupSz fs st.current_file).getD 0 := by
  unfold prepare_tail
  split
  · next sz heq => rw [heq]; rfl
  · next heq => rw [heq]; rfl

/-- C3 counterexample: when the file for today already exists with 7 bytes,
the 09:00 reset leaves the tail offset at 7, not 0, because restart of the
watch reruns the prepare step, which seeks to end of file. -/
theorem C3_reset_offset_cex :
    (reset_at_9 "2024.01.02" [(log_path "2024.01.02", 7)]
        ⟨log_path "2024.01.01", 0⟩).2.tail_pos ≠ 0 := by
  decide

/-- C3 amended: whenever the computed path for today differs from the active
path, one rollover check switches the active path and leaves the tail offset
at the end-of-file position of the new file; the 09:00 reset also leaves the
offset at the end-of-file position of the recomputed file for today, which
is 0 exactly when that file is empty or freshly created. -/
theorem C3_offset_amended (today : String) (fs : SzFS) (st : TailSt)
    (hne : log_path today ≠ st.current_file) :
    ((check_rollover today fs st).2.current_file = log_path today ∧
      (check_rollover today fs st).2.tail_pos
        = (lookupSz fs (log_path today)).getD 0) ∧
    ((reset_at_9 today fs st).2.current_file = log_path today ∧
      (reset_at_9 today fs st).2.tail_pos
        = (lookupSz fs (log_path today)).getD 0) := by
  refine ⟨⟨?_, ?_⟩, ?_, ?_⟩
  · simp only [check_rollover]
    rw [if_pos hne]
    exact prepare_tail_file fs _
  · simp only [check_rollover]
    rw [if_pos hne]
    exact prepare_tail_pos fs _
  · exact prepare_tail_file fs _
  · exact prepare_tail_pos fs _

/-- Witness for the amended C3 on a concrete filesystem where the new file
already holds 7 bytes. -/
theorem C3_offset_amended_witness :
    ((check_rollover "2024.01.02" [(log_path "2024.01.02", 7)]
        ⟨log_path "2024.01.01", 0⟩).2.current_file = log_path "2024.01.02" ∧
      (check_rollover "2024.01.02" [(log_path "2024.01.02", 7)]
        ⟨log_path "2024.01.01", 0⟩).2.tail_pos
        = (lookupSz [(log_path "2024.01.02", 7)] (log_path "2024.01.02")).getD 0) ∧
    ((reset_at_9 "2024.01.02" [(log_path "2024.01.02", 7)]
        ⟨log_path "2024.01.01", 0⟩).2.current_file = log_path "2024.01.02" ∧
      (reset_at_9 "2024.01.02" [(log_path "2024.01.02", 7)]
        ⟨log_path "2024.01.01", 0⟩).2.tail_pos
        = (lookupSz [(log_path "2024.01.02", 7)] (log_path "2024.01.02")).getD 0) :=
  C3_offset_amended "2024.01.02" [(log_path "2024.01.02", 7)]
    ⟨log_path "2024.01.01", 0⟩ (by decide)

/- ## Subscription store lemmas -/

theorem subscribers_mem_iff (state : List (String × SubRec)) (v p : String) :
    p ∈ subscribers_for_vehicle state v ↔
      ∃ e ∈ state, e.2.phone = p ∧ v ∈ e.2.vehicles ∧
        e.2.cancel_hold_until_09 = false := by
  induction state with
  | nil => simp [subscribers_for_vehicle]
  | cons e rest ih =>
    obtain ⟨k, r⟩ := e
    rw [subscribers_for_vehicle]
    by_cases hc : v ∈ r.vehicles ∧ r.cancel_hold_until_09 = false
    · rw [if_pos hc]
      constructor
      · intro hp
        rcases List.mem_cons.mp hp with hp1 | hp2
        · exact ⟨(k, r), List.mem_cons_self _ _, hp1.symm, hc.1, hc.2⟩
        · obtain ⟨e2, he2, h3⟩ := ih.mp hp2
          exact ⟨e2, List.mem_cons_of_mem _ he2, h3⟩
      · rintro ⟨e2, he2, hph, hv, hch⟩
        rcases List.mem_cons.mp he2 with he1 | he3
        · subst he1
          subst hph
          exact List.mem_cons_self _ _
        · exact List.mem_cons_of_mem _ (ih.mpr ⟨e2, he3, hph, hv, hch⟩)
    · rw [if_neg hc, ih]
      constructor
      · rintro ⟨e2, he2, h3⟩
        exact ⟨e2, List.mem_cons_of_mem _ he2, h3⟩
      · rintro ⟨e2, he2, hph, hv, hch⟩
        rcases List.mem_cons.mp he2 with he1 | he3
        · subst he1
          exact absurd ⟨hv, hch⟩ hc
        · exact ⟨e2, he3, hph, hv, hch⟩

theorem dictLookup_dictSet (s : List (String × SubRec)) (k : String) (v : SubRec) :
    dictLookup (dictSet s k v) k = some v := by
  induction s with
  | nil => simp [dictSet, dictLookup]
  | cons e rest ih =>
    obtain ⟨k0, v0⟩ := e
    by_cases h : k0 = k
    · rw [dictSet, if_pos h, dictLookup, if_pos rfl]
    · rw [dictSet, if_neg h, dictLookup, if_neg h, ih]

theorem dictSet_mem_self (s : List (String × SubRec)) (k : String) (v : SubRec) :
    (k, v) ∈ dictSet s k v := by
  induction s with
  | nil => simp [dictSet]
  | cons e rest ih =>
    obtain ⟨k0, v0⟩ := e
    by_cases h : k0 = k
    · rw [dictSet, if_pos h]
      exact List.mem_cons_self _ _
    · rw [dictSet, if_neg h]
      exact List.mem_cons_of_mem _ ih

theorem lookupJ_delJ (fs : JFS) (p q : JPath) :
    lookupJ (delJ fs p) q = if q = p then none else lookupJ fs q := by
  induction fs with
  | nil => simp [delJ, lookupJ]
  | cons e rest ih =>
    obtain ⟨r, c⟩ := e
    rw [delJ]
    by_cases hrp : r = p
    · rw [if_pos hrp, ih]
      by_cases hqp : q = p
      · rw [if_pos hqp, if_pos hqp]
      · have hrq : ¬ r = q := fun e2 => hqp (e2 ▸ hrp)
        rw [if_neg hqp, if_neg hqp, lookupJ, if_neg hrq]
    · rw [if_neg hrp]
      simp only [lookupJ]
      rw [ih]
      by_cases hrq : r = q
      · have hqp : ¬ q = p := fun e2 => hrp (hrq.trans e2)
        rw [if_pos hrq, if_pos hrq, if_neg hqp]
      · rw [if_neg hrq, if_neg hrq]

theorem lookupJ_setJ (fs : JFS) (p : JPath) (c : JContent) (q : JPath) :
    lookupJ (setJ fs p c) q = if q = p then some c else lookupJ fs q := by
  rw [setJ, lookupJ, lookupJ_delJ]
  by_cases h : p = q
  · rw [if_pos h, if_pos h.symm]
  · have hqp : ¬ q = p := fun e2 => h e2.symm
    rw [if_neg h, if_neg hqp, if_neg hqp]

theorem lookupJ_moveJ_dst (fs : JFS) (src dst : JPath) (c : JContent)
    (hlook : lookupJ fs src = some c) :
    lookupJ (moveJ fs src dst) dst = some c := by
  unfold moveJ
  rw [hlook]
  show lookupJ (setJ (delJ fs src) dst c) dst = some c
  rw [lookupJ_setJ, if_pos rfl]

theorem lookupJ_moveJ_src (fs : JFS) (src dst : JPath) (c : JContent)
    (hlook : lookupJ fs src = some c) (hne : src ≠ dst) :
    lookupJ (moveJ fs src dst) src = none := by
  unfold moveJ
  rw [hlook]
  show lookupJ (setJ (delJ fs src) dst c) src = none
  rw [lookupJ_setJ, if_neg hne, lookupJ_delJ, if_pos rfl]

/- ## C5 -/

/-- C5: subscribers_for_vehicle returns exactly the phones of records whose
vehicles list contains the vehicle and whose cancel hold flag is false; in
particular, with records A on the ladder truck, B on the articulated and
ladder trucks, and C on the ladder truck but holding, the result for the
ladder truck is exactly A and B. -/
theorem C5_subscriber_resolution :
    (∀ (state : List (String × SubRec)) (v p : String),
      p ∈ subscribers_for_vehicle state v ↔
        ∃ e ∈ state, e.2.phone = p ∧ v ∈ e.2.vehicles ∧
          e.2.cancel_hold_until_09 = false) ∧
    subscribers_for_vehicle
        [("01000000001", ⟨"01000000001", ["사다리"], false, "t1"⟩),
         ("01000000002", ⟨"01000000002", ["굴절", "사다리"], false, "t2"⟩),
         ("01000000003", ⟨"01000000003", ["사다리"], true, "t3"⟩)] "사다리"
      = ["01000000001", "01000000002"] :=
  ⟨subscribers_mem_iff, by decide⟩

/- ## C7 -/

/-- C7 counterexample: when the archive move fails during rotation, the
rotation still completes but the operation emits no message at all, so the
failure is swallowed silently rather than logged (the except branch of the
source is a bare pass). -/
theorem C7_rotation_cex :
    (¬ ∃ msg, msg ∈ (rotate_to false [(JPath.dataP "20240101", JContent.bad)]
        ⟨"20240101", []⟩ "20240102").2.2) ∧
      (rotate_to false [(JPath.dataP "20240101", JContent.bad)]
        ⟨"20240101", []⟩ "20240102").2.1.today = "20240102" := by
  constructor
  · rintro ⟨msg, hmsg⟩
    simp [rotate_to] at hmsg
  · rfl

/-- C7 amended: after rotate_to with new day d, the day key equals d, the
record list is empty and the new day file holds the empty snapshot; when the
archive move succeeds the old snapshot has been moved, not copied, to the
archive path (the old data path afterwards holds the fresh empty snapshot
when d is the old day, and nothing otherwise); when the move fails the
failure is silently swallowed, no message being emitted, and the reset still
completes. -/
theorem C7_rotation_amended (archOk : Bool) (fs : JFS) (st : StoreSt) (d : String) :
    (rotate_to archOk fs st d).2.1.today = d ∧
    store_list (rotate_to archOk fs st d).2.1 = [] ∧
    lookupJ (rotate_to archOk fs st d).1 (JPath.dataP d) = some (JContent.good []) ∧
    (rotate_to archOk fs st d).2.2 = [] ∧
    (∀ c, archOk = true → lookupJ fs (JPath.dataP st.today) = some c →
      lookupJ (rotate_to archOk fs st d).1 (JPath.archiveP st.today) = some c ∧
        lookupJ (rotate_to archOk fs st d).1 (JPath.dataP st.today)
          = if st.today = d then some (JContent.good []) else none) := by
  refine ⟨rfl, rfl, ?_, rfl, ?_⟩
  · simp only [rotate_to, persistJ]
    rw [lookupJ_setJ, if_pos rfl]
  · intro c harch hlook
    subst harch
    have hfs1 : (rotate_to true fs st d).1
        = setJ (moveJ fs (JPath.dataP st.today) (JPath.archiveP st.today))
            (JPath.dataP d) (JContent.good []) := by
      unfold rotate_to persistJ
      rw [hlook]
      rfl
    constructor
    · rw [hfs1, lookupJ_setJ, if_neg (fun e2 => JPath.noConfusion e2)]
      exact lookupJ_moveJ_dst fs _ _ c hlook
    · rw [hfs1, lookupJ_setJ]
      by_cases hd : st.today = d
      · rw [if_pos (by rw [hd]), if_pos hd]
      · rw [if_neg (fun e2 => hd (JPath.dataP.inj e2)), if_neg hd]
        exact lookupJ_moveJ_src fs _ _ c hlook (fun e2 => JPath.noConfusion e2)

/-- Witness for the amended C7 on a concrete store whose snapshot exists and
whose archive move succeeds. -/
theorem C7_rotation_amended_witness :
    lookupJ (rotate_to true [(JPath.dataP "20240101",
          JContent.good [("01000000001", ⟨"01000000001", ["사다리"], false, "t"⟩)])]
        ⟨"20240101", []⟩ "20240102").1 (JPath.archiveP "20240101")
      = some (JContent.good [("01000000001", ⟨"01000000001", ["사다리"], false, "t"⟩)]) ∧
    lookupJ (rotate_to true [(JPath.dataP "20240101",
          JContent.good [("01000000001", ⟨"01000000001", ["사다리"], false, "t"⟩)])]
        ⟨"20240101", []⟩ "20240102").1 (JPath.dataP "20240101")
      = if ("20240101" : String) = "20240102" then some (JContent.good []) else none :=
  (C7_rotation_amended true [(JPath.dataP "20240101",
      JContent.good [("01000000001", ⟨"01000000001", ["사다리"], false, "t"⟩)])]
    ⟨"20240101", []⟩ "20240102").2.2.2.2
    (JContent.good [("01000000001", ⟨"01000000001", ["사다리"], false, "t"⟩)])
    rfl (by decide)

/- ## C8 -/

/-- C8 counterexample: upsert wraps no handler around the persistence write,
so when the write fails (here during the truncating dump, leaving the file
unparseable) the exception propagates to the caller instead of only a
warning being surfaced. -/
theorem C8_upsert_cex :
    (upsert (PersistOutcome.failDuringWrite JContent.bad) [] ⟨"20240101", []⟩
      "01011112222" ["사다리"] false "2024-01-01T10:00:00").2.2 = true := rfl

/-- C8 amended: when the persistence write inside upsert fails, in any of
its failure modes, the in-memory record for the phone still reflects the
write, so subsequent list and subscribers_for_vehicle calls see it, but the
exception propagates to the caller and no warning is surfaced. -/
theorem C8_upsert_amended (out : PersistOutcome)
    (hfail : out ≠ PersistOutcome.ok) (fs : JFS) (st : StoreSt) (phone : String)
    (vehicles : List String) (ch : Bool) (ts : String) :
    (upsert out fs st phone vehicles ch ts).2.2 = true ∧
    dictLookup (upsert out fs st phone vehicles ch ts).2.1.state phone
      = some ⟨phone, vehicles, ch, ts⟩ ∧
    (⟨phone, vehicles, ch, ts⟩ : SubRec)
      ∈ store_list (upsert out fs st phone vehicles ch ts).2.1 ∧
    (ch = false → ∀ v ∈ vehicles,
      phone ∈ subscribers_for_vehicle
        (upsert out fs st phone vehicles ch ts).2.1.state v) := by
  have hstate : (upsert out fs st phone vehicles ch ts).2.1.state
      = dictSet st.state phone ⟨phone, vehicles, ch, ts⟩ := by
    cases out <;> rfl
  have hraise : (upsert out fs st phone vehicles ch ts).2.2 = true := by
    cases out with
    | ok => exact absurd rfl hfail
    | failBeforeWrite => rfl
    | failDuringWrite c => rfl
  refine ⟨hraise, ?_, ?_, ?_⟩
  · rw [hstate]
    exact dictLookup_dictSet st.state phone _
  · show (⟨phone, vehicles, ch, ts⟩ : SubRec)
      ∈ ((upsert out fs st phone vehicles ch ts).2.1).state.map Prod.snd
    rw [hstate]
    exact List.mem_map_of_mem Prod.snd (dictSet_mem_self st.state phone _)
  · intro hch v hv
    rw [hstate]
    exact (subscribers_mem_iff _ v phone).mpr
      ⟨(phone, ⟨phone, vehicles, ch, ts⟩), dictSet_mem_self st.state phone _,
        rfl, hv, hch⟩

/-- Witness for the amended C8 on a concrete failing write. -/
theorem C8_upsert_amended_witness :
    "01011112222" ∈ subscribers_for_vehicle
      (upsert (PersistOutcome.failDuringWrite JContent.bad) [] ⟨"20240101", []⟩
        "01011112222" ["사다리"] false "t").2.1.state "사다리" :=
  (C8_upsert_amended (PersistOutcome.failDuringWrite JContent.bad) (by decide)
    [] ⟨"20240101", []⟩ "01011112222" ["사다리"] false "t").2.2.2 rfl
    "사다리" (by decide)

/- ## C9 -/

/-- C9: when the current day file exists but cannot be parsed, loading
leaves the records empty without raising and without touching the corrupt
file; the file is only overwritten when the next mutating operation (here a
successful upsert) persists the new snapshot. -/
theorem C9_corrupt_load (fs : JFS) (day phone ts : String)
    (vehicles : List String) (ch : Bool)
    (hbad : lookupJ fs (JPath.dataP day) = some JContent.bad) :
    (load_today fs day).2 = [] ∧ (load_today fs day).1 = fs ∧
    lookupJ (upsert PersistOutcome.ok (load_today fs day).1
        ⟨day, (load_today fs day).2⟩
        phone vehicles ch ts).1 (JPath.dataP day)
      = some (JContent.good [(phone, ⟨phone, vehicles, ch, ts⟩)]) := by
  have h2 : load_today fs day = (fs, []) := by
    unfold load_today
    rw [hbad]
  rw [h2]
  refine ⟨rfl, rfl, ?_⟩
  simp only [upsert, persistJ, dictSet]
  rw [lookupJ_setJ, if_pos rfl]

/-- Witness for C9 on a concrete corrupt file. -/
theorem C9_corrupt_load_witness :
    (load_today [(JPath.dataP "20240101", JContent.bad)] "20240101").2 = [] ∧
    (load_today [(JPath.dataP "20240101", JContent.bad)] "20240101").1
      = [(JPath.dataP "20240101", JContent.bad)] ∧
    lookupJ (upsert PersistOutcome.ok
        (load_today [(JPath.dataP "20240101", JContent.bad)] "20240101").1
        ⟨"20240101", (load_today [(JPath.dataP "20240101", JContent.bad)] "20240101").2⟩
        "01011112222" ["사다리"] false "t").1 (JPath.dataP "20240101")
      = some (JContent.good
          [("01011112222", ⟨"01011112222", ["사다리"], false, "t"⟩)]) :=
  C9_corrupt_load [(JPath.dataP "20240101", JContent.bad)] "20240101"
    "01011112222" "t" ["사다리"] false (by decide)

/- ## Parsing lemmas for C6 -/

theorem specMatch_append_left (t s : List Char) (h : specMatch s) :
    specMatch (t ++ s) := by
  obtain ⟨pre, mid, post, he, hm, hnb⟩ := h
  exact ⟨t ++ pre, mid, post, by rw [he, List.append_assoc], hm, hnb⟩

theorem findAux_sound (s : List Char) :
    (findBracketsAux s none ≠ [] → specMatch s) ∧
    (∀ acc, noBr acc → findBracketsAux s (some acc) ≠ [] →
      specMatch ('[' :: (acc ++ s))) := by
  induction s with
  | nil =>
    constructor
    · intro h
      exact absurd rfl h
    · intro acc hacc h
      exact absurd rfl h
  | cons c r ih =>
    constructor
    · intro h
      simp only [findBracketsAux] at h
      by_cases hc : c = '['
      · rw [if_pos hc] at h
        subst hc
        have h2 := ih.2 [] (fun x hx => absurd hx (List.not_mem_nil x)) h
        simpa using h2
      · rw [if_neg hc] at h
        have h2 := specMatch_append_left [c] r (ih.1 h)
        simpa using h2
    · intro acc hacc h
      simp only [findBracketsAux] at h
      by_cases hc1 : c = ']'
      · rw [if_pos hc1] at h
        subst hc1
        by_cases ha : acc = []
        · rw [if_pos ha] at h
          subst ha
          have h2 := specMatch_append_left ['[', ']'] r (ih.1 h)
          simpa using h2
        · exact ⟨[], acc, r, by simp, ha, hacc⟩
      · rw [if_neg hc1] at h
        by_cases hc2 : c = '['
        · rw [if_pos hc2] at h
          subst hc2
          have h2 := ih.2 [] (fun x hx => absurd hx (List.not_mem_nil x)) h
          have h3 := specMatch_append_left ('[' :: acc) _ h2
          simpa using h3
        · rw [if_neg hc2] at h
          have hacc2 : noBr (acc ++ [c]) := by
            intro x hx
            rcases List.mem_append.mp hx with hx1 | hx2
            · exact hacc x hx1
            · rw [List.mem_singleton] at hx2
              subst hx2
              exact ⟨hc2, hc1⟩
          have h2 := ih.2 (acc ++ [c]) hacc2 h
          simpa [List.append_assoc] using h2

theorem findAux_of_no_specMatch (s : List Char) (h : ¬ specMatch s) :
    findBracketsAux s none = [] := by
  by_contra hne
  exact h ((findAux_sound s).1 hne)

theorem findAux_none_of_some (s : List Char) :
    ∀ acc, findBracketsAux s (some acc) = [] → findBracketsAux s none = [] := by
  induction s with
  | nil =>
    intro acc h
    rfl
  | cons c r ih =>
    intro acc h
    simp only [findBracketsAux] at h ⊢
    by_cases hc1 : c = ']'
    · rw [if_pos hc1] at h
      rw [if_neg (by rw [hc1]; decide)]
      by_cases ha : acc = []
      · rw [if_pos ha] at h
        exact h
      · rw [if_neg ha] at h
        exact absurd h (List.cons_ne_nil _ _)
    · rw [if_neg hc1] at h
      by_cases hc2 : c = '['
      · rw [if_pos hc2] at h
        rw [if_pos hc2]
        exact h
      · rw [if_neg hc2] at h
        rw [if_neg hc2]
        exact ih (acc ++ [c]) h

theorem findAux_scan (mid : List Char) :
    noBr mid → ∀ (s acc : List Char),
      findBracketsAux (mid ++ s) (some acc)
        = findBracketsAux s (some (acc ++ mid)) := by
  induction mid with
  | nil =>
    intro _ s acc
    simp
  | cons c m ih =>
    intro hnb s acc
    have hc := hnb c (List.mem_cons_self _ _)
    have hnb2 : noBr m := fun x hx => hnb x (List.mem_cons_of_mem _ hx)
    rw [List.cons_append]
    simp only [findBracketsAux]
    rw [if_neg hc.2, if_neg hc.1, ih hnb2, List.append_assoc,
      List.singleton_append]

theorem findAux_complete (s : List Char) (h : specMatch s) :
    findBracketsAux s none ≠ [] := by
  obtain ⟨pre, mid, post, he, hm, hnb⟩ := h
  subst he
  induction pre with
  | nil =>
    simp only [List.nil_append, findBracketsAux]
    rw [if_pos trivial, findAux_scan mid hnb (']' :: post) []]
    simp only [List.nil_append, findBracketsAux]
    rw [if_pos trivial, if_neg hm]
    exact List.cons_ne_nil _ _
  | cons c pre2 ih =>
    simp only [List.cons_append, findBracketsAux]
    by_cases hc : c = '['
    · rw [if_pos hc]
      intro h2
      exact ih (findAux_none_of_some _ [] h2)
    · rw [if_neg hc]
      exact ih

theorem findAux_core (m v : List Char) (hm : m ≠ []) (hnb : noBr m)
    (hv : findBracketsAux v none = []) :
    ∀ u : List Char,
      (∃ ms, findBracketsAux (u ++ ('[' :: (m ++ (']' :: v)))) none = ms ++ [m]) ∧
      (∀ acc, ∃ ms,
        findBracketsAux (u ++ ('[' :: (m ++ (']' :: v)))) (some acc) = ms ++ [m]) := by
  have hcore : findBracketsAux (m ++ (']' :: v)) (some []) = [m] := by
    rw [findAux_scan m hnb (']' :: v) []]
    simp only [List.nil_append, findBracketsAux]
    rw [if_pos trivial, if_neg hm, hv]
  intro u
  induction u with
  | nil =>
    constructor
    · refine ⟨[], ?_⟩
      simp only [List.nil_append, findBracketsAux]
      rw [if_pos trivial, hcore]
    · intro acc
      refine ⟨[], ?_⟩
      simp only [List.nil_append, findBracketsAux]
      rw [if_pos trivial, hcore, if_neg (show ¬ ('[' = ']') by decide)]
  | cons c u2 ih =>
    constructor
    · simp only [List.cons_append, findBracketsAux, List.append_eq]
      by_cases hc : c = '['
      · rw [if_pos hc]
        exact ih.2 []
      · rw [if_neg hc]
        exact ih.1
    · intro acc
      simp only [List.cons_append, findBracketsAux, List.append_eq]
      by_cases hc1 : c = ']'
      · rw [if_pos hc1]
        by_cases ha : acc = []
        · rw [if_pos ha]
          exact ih.1
        · rw [if_neg ha]
          obtain ⟨ms, hms⟩ := ih.1
          exact ⟨acc :: ms, by rw [hms, List.cons_append]⟩
      · rw [if_neg hc1]
        by_cases hc2 : c = '['
        · rw [if_pos hc2]
          exact ih.2 []
        · rw [if_neg hc2]
          exact ih.2 (acc ++ [c])

theorem last_bracket_value_of_empty (line : String)
    (h : findBracketsAux line.data none = []) : last_bracket_value line = none := by
  unfold last_bracket_value
  rw [h]
  rfl

theorem last_bracket_value_of_concat (line : String) (ms : List (List Char))
    (m : List Char) (h : findBracketsAux line.data none = ms ++ [m]) :
    last_bracket_value line = some (aliasGet (String.mk (removeSpaces (pyStrip m)))) := by
  unfold last_bracket_value
  rw [h, List.getLast?_concat]

/- ## C6 -/

/-- C6: a line with no bracketed substring (an open bracket, one or more
non-bracket characters, a close bracket) parses to nothing; a line ending in
a bracket group followed by material without any further group parses to the
content of that last group, stripped of whitespace at the ends, with spaces
removed and alias-resolved; and a line whose resolved token is outside the
vehicle allow-list is dropped by the handler silently: no send attempt, no
status entry, no storage change. -/
theorem C6_line_parsing :
    (∀ line : String, ¬ specMatch line.data → last_bracket_value line = none) ∧
    (∀ u m v : List Char, m ≠ [] → noBr m → ¬ specMatch v →
      last_bracket_value (String.mk (u ++ ('[' :: (m ++ (']' :: v)))))
        = some (aliasGet (String.mk (removeSpaces (pyStrip m))))) ∧
    (∀ (env : Env) (st : AppSt) (line : String) (veh : String),
      last_bracket_value line = some veh → veh ∉ VEHICLES →
      (handle_line env st line).sent = st.sent ∧
        (handle_line env st line).status = st.status ∧
        (handle_line env st line).storage = st.storage) := by
  refine ⟨?_, ?_, ?_⟩
  · intro line h
    exact last_bracket_value_of_empty line (findAux_of_no_specMatch line.data h)
  · intro u m v hm hnb hvnm
    have hv : findBracketsAux v none = [] := findAux_of_no_specMatch v hvnm
    obtain ⟨ms, hms⟩ := (findAux_core m v hm hnb hv u).1
    exact last_bracket_value_of_concat _ ms m hms
  · intro env st line veh hlb hveh
    by_cases hseen : dedupSeen st.dedup (env.lhash line)
    · simp only [handle_line]
      rw [if_pos hseen]
      exact ⟨rfl, rfl, rfl⟩
    · simp only [handle_line, hlb]
      rw [if_neg hseen, if_pos (Or.inr hveh)]
      exact ⟨rfl, rfl, rfl⟩

/-- Witness for C6 at concrete lines: one without brackets, one with two
groups whose last content carries spaces and an alias, and one whose token
is not in the allow-list. -/
theorem C6_line_parsing_witness :
    last_bracket_value "2024-01-01 dispatch without brackets" = none ∧
    last_bracket_value (String.mk
        ("a [x] b ".data ++ ('[' :: (" 금암구급02 ".data ++ (']' :: " tail".data)))))
      = some (aliasGet (String.mk (removeSpaces (pyStrip " 금암구급02 ".data)))) ∧
    (handle_line ⟨fun s => s, fun _ _ => true, "10:00:00"⟩
        ⟨emptyDedup, [], [], []⟩ "[없는차]").sent = [] ∧
      (handle_line ⟨fun s => s, fun _ _ => true, "10:00:00"⟩
        ⟨emptyDedup, [], [], []⟩ "[없는차]").status = [] ∧
      (handle_line ⟨fun s => s, fun _ _ => true, "10:00:00"⟩
        ⟨emptyDedup, [], [], []⟩ "[없는차]").storage = [] := by
  refine ⟨?_, ?_, ?_⟩
  · exact C6_line_parsing.1 "2024-01-01 dispatch without brackets"
      (fun hsm => findAux_complete _ hsm (by decide))
  · exact C6_line_parsing.2.1 "a [x] b ".data " 금암구급02 ".data " tail".data
      (by decide) (by decide) (fun hsm => findAux_complete _ hsm (by decide))
  · exact C6_line_parsing.2.2 ⟨fun s => s, fun _ _ => true, "10:00:00"⟩
      ⟨emptyDedup, [], [], []⟩ "[없는차]" "없는차" (by decide) (by decide)

/- ## C4 -/

/-- C4: with exactly one subscriber whose stored phone is 010-1111-2222,
subscribed to the ladder truck with the cancel hold off, handling the fresh
line of the scenario produces exactly one send attempt; its destination
after the digit normalisation applied by the SMS provider is 01011112222,
and its text contains the vehicle name but neither the timestamp nor the
other bracket content of the log line. -/
theorem C4_end_to_end (env : Env) (ts : String) :
    (handle_line env
        ⟨emptyDedup,
          dictSet [] "010-1111-2222" ⟨"010-1111-2222", ["사다리"], false, ts⟩,
          [], []⟩
        "2024-01-01 10:00:00 [긴급] [사다리]").sent
      = [("010-1111-2222", "[출동알림] 사다리")] ∧
    send_dest "010-1111-2222" = "01011112222" ∧
    hasSub "사다리".data "[출동알림] 사다리".data = true ∧
    hasSub "긴급".data "[출동알림] 사다리".data = false ∧
    hasSub "2024-01-01".data "[출동알림] 사다리".data = false ∧
    hasSub "10:00:00".data "[출동알림] 사다리".data = false :=
  ⟨rfl, by decide, by decide, by decide, by decide, by decide⟩

/- ## C10 -/

/-- C10: blank lines are invisible: running the tail loop over any line
sequence gives exactly the state of running it over the sequence with the
blank lines (empty or whitespace-only after stripping the trailing newline)
removed, so a blank line is never handled, never recorded in the dedup
cache, and produces no notification or status entry. -/
theorem C10_blank_lines (env : Env) (st : AppSt) (raws : List String) :
    process_lines env st raws
      = process_lines env st
          (raws.filter (fun r => !(pyStrip (rstripNl r).data).isEmpty)) := by
  induction raws generalizing st with
  | nil => rfl
  | cons raw rest ih =>
    rw [List.filter_cons]
    by_cases hb : (pyStrip (rstripNl raw).data).isEmpty
    · rw [if_neg (by simp [hb])]
      simp only [process_lines]
      rw [if_pos hb]
      exact ih st
    · rw [if_pos (by simp [hb])]
      simp only [process_lines]
      rw [if_neg hb]
      exact ih _

end DispatchAlert
